import Mathlib

/-!
Verification of the `Composite` shape cursor of the scale-decode crate
(`src/scale-decode/src/visitor/types/composite.rs`).

Modelling conventions:
* Byte slices (`&[u8]`) are `List Nat` values; narrowing a borrowed slice is
  taking a suffix of the list.
* The opaque borrows `&Path<PortableForm>` (only stored and returned) are
  modelled as `List String`, and `&PortableRegistry` as a type parameter `R`:
  `composite.rs` never inspects either, it only passes them on.
* `scale_info::Field<PortableForm>` is a record of an optional name and a
  numeric type id, the two projections `composite.rs` uses (`name()`,
  `ty().id()`).
* Methods taking `&mut self` become functions `Composite R → result × Composite R`
  returning the value produced together with the updated cursor.
-/

namespace ScaleDecode

/-- A field of a composite type: the optional name and the nested type id,
the two pieces of `scale_info::Field<PortableForm>` that `composite.rs`
reads (`f.name()` and `f.ty().id()`). -/
structure Field where
  name : Option String
  ty : Nat
deriving Repr, DecidableEq

/-- Modelled from the spec: the Decode Engine entry point
`decode_with_visitor(bytes, type_id, types, visitor)` lives outside `src/`.
Per the spec it takes a byte cursor, a type identifier and the registry,
drives one visitor through the resolved shape, and leaves the cursor
narrowed by exactly the bytes it consumed.  An `Engine R V E` is that entry
point specialised to one visitor value: from the current byte cursor, the
type id and the registry it returns the narrowed byte cursor together with
the visitor's result (`Except E V` standing for `Result<V::Value, V::Error>`). -/
abbrev Engine (R V E : Type) := List Nat → Nat → R → List Nat × Except E V

/-- This represents a composite type (struct `Composite<'scale, 'info>`). -/
structure Composite (R : Type) where
  bytes : List Nat
  item_bytes : List Nat
  path : List String
  fields : List Field
  types : R
deriving Repr

variable {R V Err : Type}

/-- `Composite::new(bytes, path, fields, types)`: both byte views start out
as the full `bytes`. -/
def Composite.new (bytes : List Nat) (path : List String) (fields : List Field)
    (types : R) : Composite R :=
  { bytes := bytes, path := path, item_bytes := bytes, fields := fields, types := types }

/-- `Composite::bytes_from_start`. -/
def Composite.bytes_from_start (c : Composite R) : List Nat :=
  c.bytes

/-- `Composite::bytes_from_undecoded`. -/
def Composite.bytes_from_undecoded (c : Composite R) : List Nat :=
  c.item_bytes

/-- `Composite::remaining`: the number of un-decoded items. -/
def Composite.remaining (c : Composite R) : Nat :=
  c.fields.length

/-- `Composite::peek_name`: `self.fields.get(0).and_then(|f| f.name())`. -/
def Composite.peek_name (c : Composite R) : Option String :=
  c.fields.head?.bind (fun f => f.name)

/-- `Composite::has_unnamed_fields`: `self.fields.iter().any(|f| f.name().is_none())`. -/
def Composite.has_unnamed_fields (c : Composite R) : Bool :=
  c.fields.any (fun f => f.name.isNone)

/-- `Composite::decode_item(visitor)`: if no fields remain, return `None`
without touching the engine; otherwise run the decode engine on the first
field's type over the undecoded bytes, then point `item_bytes` at the
cursor the engine left behind and drop the first field — unconditionally,
whether the nested decode succeeded or failed. -/
def Composite.decode_item (E : Engine R V Err) (c : Composite R) :
    Option (Except Err V) × Composite R :=
  match c.fields with
  | [] => (none, c)
  | field :: rest =>
    let p := E c.item_bytes field.ty c.types
    (some p.2, { c with item_bytes := p.1, fields := rest })

/-- `Composite::skip_decoding`: `while !self.fields.is_empty() { self.decode_item(IgnoreVisitor).transpose()?; }`.
The loop guard `!fields.is_empty()` holds exactly when `decode_item`
returns `Some`, so the loop is phrased as: step with `decode_item`, stop
with `Ok` when it yields `None`, abort with the error when the step fails,
otherwise continue from the advanced cursor. -/
def Composite.skip_decoding (E : Engine R Unit Err) (c : Composite R) :
    Except Err Unit × Composite R :=
  match h : Composite.decode_item E c with
  | (none, _) => (Except.ok (), c)
  | (some (Except.error e), c2) => (Except.error e, c2)
  | (some (Except.ok _), c2) => Composite.skip_decoding E c2
termination_by c.remaining
decreasing_by
  rcases hf : c.fields with _ | ⟨f, rest⟩
  · simp [Composite.decode_item, hf] at h
  · simp [Composite.decode_item, hf] at h
    rcases h with ⟨h1, h2⟩
    rw [← h2]
    simp [Composite.remaining, hf]

/-- A single field in the composite type (struct `CompositeField`):
the recorded name, the byte slice holding this field's encoding, the
field metadata and the registry. -/
structure CompositeField (R : Type) where
  name : Option String
  bytes : List Nat
  field : Field
  types : R
deriving Repr

/-- `CompositeField::type_id`: `self.field.ty().id()`. -/
def CompositeField.type_id (f : CompositeField R) : Nat :=
  f.field.ty

/-- `CompositeField::decode_with_visitor`: re-run the decode engine over the
recorded byte slice of this field. -/
def CompositeField.decode_with_visitor (E : Engine R V Err) (f : CompositeField R) :
    Except Err V :=
  (E f.bytes f.field.ty f.types).2

/-- `<Composite as Iterator>::next`: record the first field, the peeked name
and the current undecoded bytes, step with `decode_item` using the ignoring
visitor, and on success hand back a `CompositeField` whose bytes are the
prefix of the old undecoded bytes of length `num_bytes_before - num_bytes_after`. -/
def Composite.next (E : Engine R Unit Err) (c : Composite R) :
    Option (Except Err (CompositeField R)) × Composite R :=
  match c.fields.head? with
  | none => (none, c)
  | some field =>
    let name := c.peek_name
    let num_bytes_before := c.item_bytes.length
    let item_bytes := c.item_bytes
    let step := Composite.decode_item E c
    match step.1 with
    | none => (none, step.2)
    | some (Except.error e) => (some (Except.error e), step.2)
    | some (Except.ok _) =>
      let num_bytes_after := step.2.item_bytes.length
      let res_bytes := item_bytes.take (num_bytes_before - num_bytes_after)
      (some (Except.ok
        { name := name, bytes := res_bytes, field := field, types := c.types }), step.2)

/-- Modelled from the spec: the `Tuple` shape cursor (`visitor/types/tuple.rs`
is not under `src/`).  Per the spec, `as_tuple_view` "reinterprets the
remaining named fields as an unnamed tuple cursor over the same bytes,
discarding names", so the tuple cursor keeps the two byte views, the
fields' type ids only (names discarded), and the registry. -/
structure Tuple (R : Type) where
  bytes : List Nat
  item_bytes : List Nat
  field_tys : List Nat
  types : R
deriving Repr

/-- Modelled from the spec: `Tuple::new(bytes, fields, types)` — a fresh
tuple cursor over `bytes` whose undecoded view starts as the whole of
`bytes` and whose items are the fields' type ids, names dropped. -/
def Tuple.new (bytes : List Nat) (fields : List Field) (types : R) : Tuple R :=
  { bytes := bytes, item_bytes := bytes, field_tys := fields.map Field.ty, types := types }

/-- `Composite::as_tuple`: `Tuple::new(self.item_bytes, self.fields, self.types)`.
It reads `self` without updating it. -/
def Composite.as_tuple (c : Composite R) : Tuple R :=
  Tuple.new c.item_bytes c.fields c.types

/-- Iteration harness for the claims about exhausting a cursor: call
`decode_item` until it returns `None`, recording for every call the number
of bytes by which the undecoded view shrank and the call's result, and
return those two lists with the final cursor. -/
def Composite.runAll (E : Engine R V Err) (c : Composite R) :
    List Nat × List (Except Err V) × Composite R :=
  match h : Composite.decode_item E c with
  | (none, _) => ([], [], c)
  | (some res, c2) =>
    let t := Composite.runAll E c2
    ((c.item_bytes.length - c2.item_bytes.length) :: t.1, res :: t.2.1, t.2.2)
termination_by c.remaining
decreasing_by
  rcases hf : c.fields with _ | ⟨f, rest⟩
  · simp [Composite.decode_item, hf] at h
  · simp [Composite.decode_item, hf] at h
    rcases h with ⟨h1, h2⟩
    rw [← h2]
    simp [Composite.remaining, hf]

/-- Decode each listed field in order through the engine, starting from the
given byte cursor, and return the byte cursor left after the last field:
by the spec's invariant these are "the bytes immediately following this
shape's encoding". -/
def engineFold (E : Engine R V Err) (r : R) : List Field → List Nat → List Nat
  | [], b => b
  | f :: fs, b => engineFold E r fs (E b f.ty r).1

/-- The engine narrows its byte cursor: the cursor it leaves is a suffix of
the cursor it was given.  This is the spec's contract for every decode
operation ("consumes a prefix and returns a narrower cursor"). -/
def EngineNarrows (E : Engine R V Err) : Prop :=
  ∀ b t r, (E b t r).1 <:+ b

/-- The undecoded view is a suffix of the from-start view. -/
def SuffixInv (c : Composite R) : Prop :=
  c.item_bytes <:+ c.bytes

/-- Concrete engine used to exercise the theorems: on type id `t` it
consumes `t` bytes and succeeds with `()`. -/
def dropEngine : Engine Unit Unit Unit :=
  fun b t _ => (b.drop t, Except.ok ())

/-- Concrete engine that fails without consuming anything. -/
def failEngine : Engine Unit Unit Unit :=
  fun b _ _ => (b, Except.error ())

/-- Concrete cursor over four bytes with two fields of type ids 2 and 1. -/
def sampleCursor : Composite Unit :=
  Composite.new [0, 1, 2, 3] [] [⟨some "x", 2⟩, ⟨none, 1⟩] ()

/-- Concrete cursor over two bytes with a single field. -/
def oneFieldCursor : Composite Unit :=
  Composite.new [0, 1] [] [⟨none, 7⟩] ()

/-- The sample cursor after its first field (2 bytes) has been pulled. -/
def sampleCursor1 : Composite Unit :=
  { bytes := [0, 1, 2, 3], item_bytes := [2, 3], path := [],
    fields := [⟨none, 1⟩], types := () }

/-- The sample cursor after both fields (2 bytes then 1 byte) have been pulled. -/
def sampleCursor2 : Composite Unit :=
  { bytes := [0, 1, 2, 3], item_bytes := [3], path := [], fields := [], types := () }

/-- The cursor left behind by one `decode_item` step taken on a cursor whose
field list starts with `f` followed by `rest`. -/
def stepCursor (E : Engine R V Err) (c : Composite R) (f : Field) (rest : List Field) :
    Composite R :=
  { c with item_bytes := (E c.item_bytes f.ty c.types).1, fields := rest }

theorem decode_item_nil {E : Engine R V Err} {c : Composite R} (hf : c.fields = []) :
    Composite.decode_item E c = (none, c) := by
  simp [Composite.decode_item, hf]

theorem decode_item_cons {E : Engine R V Err} {c : Composite R} {f : Field}
    {rest : List Field} (hf : c.fields = f :: rest) :
    Composite.decode_item E c =
      (some (E c.item_bytes f.ty c.types).2, stepCursor E c f rest) := by
  simp [Composite.decode_item, stepCursor, hf]

theorem skip_decoding_nil {E : Engine R Unit Err} {c : Composite R} (hf : c.fields = []) :
    Composite.skip_decoding E c = (Except.ok (), c) := by
  rw [Composite.skip_decoding]
  split <;> simp_all [decode_item_nil hf]

theorem skip_decoding_cons_err {E : Engine R Unit Err} {c : Composite R} {f : Field}
    {rest : List Field} {e : Err} (hf : c.fields = f :: rest)
    (he : (E c.item_bytes f.ty c.types).2 = Except.error e) :
    Composite.skip_decoding E c = (Except.error e, stepCursor E c f rest) := by
  rw [Composite.skip_decoding]
  split <;> simp_all [decode_item_cons hf]

theorem skip_decoding_cons_ok {E : Engine R Unit Err} {c : Composite R} {f : Field}
    {rest : List Field} (hf : c.fields = f :: rest)
    (he : (E c.item_bytes f.ty c.types).2 = Except.ok ()) :
    Composite.skip_decoding E c = Composite.skip_decoding E (stepCursor E c f rest) := by
  conv_lhs => rw [Composite.skip_decoding]
  split <;> simp_all [decode_item_cons hf]

theorem runAll_none {E : Engine R V Err} {c : Composite R} (hf : c.fields = []) :
    Composite.runAll E c = ([], [], c) := by
  rw [Composite.runAll]
  split <;> simp_all [decode_item_nil hf]

theorem runAll_cons {E : Engine R V Err} {c : Composite R} {f : Field}
    {rest : List Field} (hf : c.fields = f :: rest) :
    Composite.runAll E c =
      ((c.item_bytes.length - (stepCursor E c f rest).item_bytes.length) ::
         (Composite.runAll E (stepCursor E c f rest)).1,
       (E c.item_bytes f.ty c.types).2 :: (Composite.runAll E (stepCursor E c f rest)).2.1,
       (Composite.runAll E (stepCursor E c f rest)).2.2) := by
  conv_lhs => rw [Composite.runAll]
  split <;> simp_all [decode_item_cons hf]

/-- A suffix is recovered by dropping the length difference. -/
theorem suffix_drop_eq {l s : List Nat} (h : s <:+ l) :
    l.drop (l.length - s.length) = s := by
  obtain ⟨t, rfl⟩ := h
  rw [List.length_append, Nat.add_sub_cancel, List.drop_left]

/-- Claim C1: `Composite::decode_item` returns `None` — without invoking the
visitor, leaving the cursor untouched — exactly when the remaining field
list is empty; otherwise it decodes exactly one nested item through the
decode engine and, on success, the remaining field list shrinks by exactly
one field and the undecoded byte view shrinks by exactly the bytes the
nested decode consumed (it becomes the engine's narrowed cursor, the old
view with the consumed count dropped). -/
theorem decode_item_contract (E : Engine R V Err) (c : Composite R) :
    ((Composite.decode_item E c).1 = none ↔ c.remaining = 0) ∧
    (c.remaining = 0 → Composite.decode_item E c = (none, c)) ∧
    (∀ f rest b2 v, c.fields = f :: rest →
      E c.item_bytes f.ty c.types = (b2, Except.ok v) →
      Composite.decode_item E c =
        (some (Except.ok v), { c with item_bytes := b2, fields := rest }) ∧
      (Composite.decode_item E c).2.remaining + 1 = c.remaining ∧
      (b2 <:+ c.item_bytes →
        (Composite.decode_item E c).2.item_bytes =
          c.item_bytes.drop (c.item_bytes.length - b2.length))) := by
  refine ⟨?_, ?_, ?_⟩
  · rcases hf : c.fields with _ | ⟨f, rest⟩
    · simp [decode_item_nil hf, Composite.remaining, hf]
    · simp [decode_item_cons hf, Composite.remaining, hf]
  · intro h0
    exact decode_item_nil (List.length_eq_zero.mp h0)
  · intro f rest b2 v hf hE
    rw [decode_item_cons hf]
    refine ⟨?_, ?_, ?_⟩
    · simp [stepCursor, hE]
    · simp [stepCursor, Composite.remaining, hf]
    · intro hs
      simp [stepCursor, hE, suffix_drop_eq hs]

/-- Witness for C1 at the concrete drop-engine and the sample cursor. -/
theorem decode_item_contract_witness :
    Composite.decode_item dropEngine sampleCursor =
      (some (Except.ok ()),
       { sampleCursor with item_bytes := [2, 3], fields := [⟨none, 1⟩] }) ∧
    (Composite.decode_item dropEngine sampleCursor).2.remaining + 1 =
      sampleCursor.remaining ∧
    (Composite.decode_item dropEngine sampleCursor).2.item_bytes =
      sampleCursor.item_bytes.drop (sampleCursor.item_bytes.length - 2) := by
  have h := (decode_item_contract dropEngine sampleCursor).2.2 ⟨some "x", 2⟩
      [⟨none, 1⟩] [2, 3] () rfl rfl
  exact ⟨h.1, h.2.1, by simpa using h.2.2 (by decide)⟩

/-- Claim C9: when the nested decode inside `decode_item` fails, the cursor
is nonetheless advanced: the remaining field list shrinks by exactly one
field, the undecoded view becomes whatever byte cursor the failed nested
decode left behind, and the from-start bytes, the path and the registry are
unchanged. -/
theorem decode_item_error_frame (E : Engine R V Err) (c : Composite R) (f : Field)
    (rest : List Field) (e : Err) (hf : c.fields = f :: rest)
    (he : (E c.item_bytes f.ty c.types).2 = Except.error e) :
    (Composite.decode_item E c).1 = some (Except.error e) ∧
    (Composite.decode_item E c).2.fields = rest ∧
    (Composite.decode_item E c).2.remaining + 1 = c.remaining ∧
    (Composite.decode_item E c).2.item_bytes = (E c.item_bytes f.ty c.types).1 ∧
    (Composite.decode_item E c).2.bytes = c.bytes ∧
    (Composite.decode_item E c).2.path = c.path ∧
    (Composite.decode_item E c).2.types = c.types := by
  rw [decode_item_cons hf]
  simp [stepCursor, Composite.remaining, hf, he]

/-- Witness for C9 at the concrete failing engine and one-field cursor. -/
theorem decode_item_error_frame_witness :
    (Composite.decode_item failEngine oneFieldCursor).1 = some (Except.error ()) ∧
    (Composite.decode_item failEngine oneFieldCursor).2.fields = [] ∧
    (Composite.decode_item failEngine oneFieldCursor).2.remaining + 1 =
      oneFieldCursor.remaining ∧
    (Composite.decode_item failEngine oneFieldCursor).2.item_bytes =
      (failEngine oneFieldCursor.item_bytes 7 ()).1 ∧
    (Composite.decode_item failEngine oneFieldCursor).2.bytes = oneFieldCursor.bytes ∧
    (Composite.decode_item failEngine oneFieldCursor).2.path = oneFieldCursor.path ∧
    (Composite.decode_item failEngine oneFieldCursor).2.types = oneFieldCursor.types :=
  decode_item_error_frame failEngine oneFieldCursor ⟨none, 7⟩ [] () rfl rfl

/-- Claim C4 counterexample: with an engine that fails without consuming any
bytes, `decode_item` on a cursor with one remaining field returns the error
yet does not leave the remaining field list as it was before the call: the
remaining count drops from 1 to 0. -/
theorem decode_item_failure_advances_cex :
    (Composite.decode_item failEngine oneFieldCursor).1 = some (Except.error ()) ∧
    (Composite.decode_item failEngine oneFieldCursor).2.remaining = 0 ∧
    oneFieldCursor.remaining = 1 :=
  ⟨rfl, rfl, rfl⟩

/-- Claim C4 amended: a failing `decode_item` call whose nested decode does
not itself consume bytes leaves the undecoded byte view and the from-start
bytes exactly as they were before the call and returns the error, but the
remaining field list still shrinks by exactly one field. -/
theorem decode_item_failure_no_consume (E : Engine R V Err) (c : Composite R)
    (f : Field) (rest : List Field) (e : Err) (hf : c.fields = f :: rest)
    (he : E c.item_bytes f.ty c.types = (c.item_bytes, Except.error e)) :
    (Composite.decode_item E c).1 = some (Except.error e) ∧
    (Composite.decode_item E c).2.item_bytes = c.item_bytes ∧
    (Composite.decode_item E c).2.bytes = c.bytes ∧
    (Composite.decode_item E c).2.remaining + 1 = c.remaining := by
  rw [decode_item_cons hf]
  simp [stepCursor, Composite.remaining, hf, he]

/-- Witness for the amended C4 at the concrete failing engine. -/
theorem decode_item_failure_no_consume_witness :
    (Composite.decode_item failEngine oneFieldCursor).1 = some (Except.error ()) ∧
    (Composite.decode_item failEngine oneFieldCursor).2.item_bytes =
      oneFieldCursor.item_bytes ∧
    (Composite.decode_item failEngine oneFieldCursor).2.bytes = oneFieldCursor.bytes ∧
    (Composite.decode_item failEngine oneFieldCursor).2.remaining + 1 =
      oneFieldCursor.remaining :=
  decode_item_failure_no_consume failEngine oneFieldCursor ⟨none, 7⟩ [] () rfl rfl

/-- Claim C8: `as_tuple` produces a tuple cursor over exactly the composite's
current undecoded bytes (both the tuple's from-start view and its undecoded
view are that slice) and the composite's current remaining field list with
names discarded (their type ids, in order), over the same registry; being a
read-only function of the cursor it does not update the composite. -/
theorem as_tuple_contract (c : Composite R) :
    (Composite.as_tuple c).bytes = c.bytes_from_undecoded ∧
    (Composite.as_tuple c).item_bytes = c.bytes_from_undecoded ∧
    (Composite.as_tuple c).field_tys = c.fields.map Field.ty ∧
    (Composite.as_tuple c).types = c.types := by
  simp [Composite.as_tuple, Tuple.new, Composite.bytes_from_undecoded]

/-- Running `decode_item` to exhaustion under a narrowing engine: the final
undecoded view is a suffix of the starting one, the recorded consumed byte
counts telescope to the total shrinkage, the from-start bytes are preserved,
and no fields remain. -/
theorem runAll_props {E : Engine R V Err} (hN : EngineNarrows E) :
    ∀ (n : Nat) (c : Composite R), c.remaining = n →
      (Composite.runAll E c).2.2.item_bytes <:+ c.item_bytes ∧
      (Composite.runAll E c).1.sum =
        c.item_bytes.length - (Composite.runAll E c).2.2.item_bytes.length ∧
      (Composite.runAll E c).2.2.bytes = c.bytes ∧
      (Composite.runAll E c).2.2.remaining = 0 := by
  intro n
  induction n with
  | zero =>
    intro c hc
    have hf : c.fields = [] := List.length_eq_zero.mp hc
    rw [runAll_none hf]
    simp [Composite.remaining, hf]
  | succ n ih =>
    intro c hc
    rcases hF : c.fields with _ | ⟨f, rest⟩
    · rw [Composite.remaining, hF] at hc
      simp at hc
    · have hstep : (stepCursor E c f rest).remaining = n := by
        rw [Composite.remaining, hF] at hc
        simp only [List.length_cons] at hc
        simp only [stepCursor, Composite.remaining]
        omega
      obtain ⟨ihSuf, ihSum, ihBytes, ihRem⟩ := ih (stepCursor E c f rest) hstep
      have hsc : (stepCursor E c f rest).item_bytes <:+ c.item_bytes :=
        hN c.item_bytes f.ty c.types
      rw [runAll_cons hF]
      refine ⟨ihSuf.trans hsc, ?_, ihBytes, ihRem⟩
      have h1 := ihSuf.length_le
      have h2 := hsc.length_le
      simp only [List.sum_cons, ihSum]
      omega

/-- Claim C2: starting from a fresh cursor, after iterating `decode_item` to
exhaustion the sum of bytes consumed across all calls equals
`bytes_from_start().len() - bytes_from_undecoded().len()` of the final
cursor, the final cursor has zero remaining fields, and for every cursor
`decode_item` returns `None` exactly when `remaining()` is zero. -/
theorem consumed_total_on_exhaustion (E : Engine R V Err) (b : List Nat)
    (p : List String) (fs : List Field) (r : R) (hN : EngineNarrows E) :
    (Composite.runAll E (Composite.new b p fs r)).1.sum =
      (Composite.runAll E (Composite.new b p fs r)).2.2.bytes_from_start.length -
        (Composite.runAll E (Composite.new b p fs r)).2.2.bytes_from_undecoded.length ∧
    (Composite.runAll E (Composite.new b p fs r)).2.2.remaining = 0 ∧
    (∀ c : Composite R, (Composite.decode_item E c).1 = none ↔ c.remaining = 0) := by
  obtain ⟨hsuf, hsum, hbytes, hrem⟩ :=
    runAll_props hN (Composite.new b p fs r).remaining (Composite.new b p fs r) rfl
  refine ⟨?_, hrem, ?_⟩
  · rw [Composite.bytes_from_start, Composite.bytes_from_undecoded, hbytes]
    simpa [Composite.new] using hsum
  · intro c
    rcases hf : c.fields with _ | ⟨f, rest⟩
    · simp [decode_item_nil hf, Composite.remaining, hf]
    · simp [decode_item_cons hf, Composite.remaining, hf]

/-- Witness for C2 at the concrete drop-engine and the sample cursor data. -/
theorem consumed_total_on_exhaustion_witness :
    (Composite.runAll dropEngine
        (Composite.new [0, 1, 2, 3] [] [⟨some "x", 2⟩, ⟨none, 1⟩] ())).1.sum =
      (Composite.runAll dropEngine
        (Composite.new [0, 1, 2, 3] [] [⟨some "x", 2⟩, ⟨none, 1⟩] ())).2.2.bytes_from_start.length -
        (Composite.runAll dropEngine
          (Composite.new [0, 1, 2, 3] [] [⟨some "x", 2⟩, ⟨none, 1⟩] ())).2.2.bytes_from_undecoded.length ∧
    (Composite.runAll dropEngine
        (Composite.new [0, 1, 2, 3] [] [⟨some "x", 2⟩, ⟨none, 1⟩] ())).2.2.remaining = 0 ∧
    ((Composite.decode_item dropEngine sampleCursor).1 = none ↔
      sampleCursor.remaining = 0) := by
  have h := consumed_total_on_exhaustion dropEngine [0, 1, 2, 3] []
      [⟨some "x", 2⟩, ⟨none, 1⟩] () (fun b t r => List.drop_suffix t b)
  exact ⟨h.1, h.2.1, h.2.2 sampleCursor⟩

/-- Claim C5: the generic iteration step returns `None` exactly when no
fields remain (leaving the cursor untouched); with at least one remaining
field and a successful nested decode under a narrowing engine, it returns a
`CompositeField` whose bytes are exactly the consumed prefix of the pre-call
undecoded bytes, whose type id is the field's nested type id, and whose
name is the field's name, while the cursor drops that prefix and the first
field. -/
theorem iterator_next_contract (E : Engine R Unit Err) (c : Composite R)
    (hN : EngineNarrows E) :
    ((Composite.next E c).1 = none ↔ c.remaining = 0) ∧
    (c.remaining = 0 → Composite.next E c = (none, c)) ∧
    (∀ f rest, c.fields = f :: rest →
      (E c.item_bytes f.ty c.types).2 = Except.ok () →
      ∃ n, n ≤ c.item_bytes.length ∧
        (E c.item_bytes f.ty c.types).1 = c.item_bytes.drop n ∧
        Composite.next E c =
          (some (Except.ok
            { name := f.name, bytes := c.item_bytes.take n, field := f,
              types := c.types }),
           { c with item_bytes := c.item_bytes.drop n, fields := rest })) := by
  refine ⟨?_, ?_, ?_⟩
  · rcases hf : c.fields with _ | ⟨f, rest⟩
    · simp [Composite.next, hf, Composite.remaining]
    · rcases he : (E c.item_bytes f.ty c.types).2 with e | u
      · simp [Composite.next, hf, decode_item_cons hf, he, Composite.remaining]
      · simp [Composite.next, hf, decode_item_cons hf, he, Composite.remaining]
  · intro h0
    have hf : c.fields = [] := List.length_eq_zero.mp h0
    simp [Composite.next, hf]
  · intro f rest hf he
    have hs := suffix_drop_eq (hN c.item_bytes f.ty c.types)
    refine ⟨c.item_bytes.length - (E c.item_bytes f.ty c.types).1.length,
      Nat.sub_le _ _, hs.symm, ?_⟩
    simp [Composite.next, Composite.peek_name, hf, decode_item_cons hf, he,
      stepCursor, hs]

/-- Witness for C5 at the concrete drop-engine and the sample cursor. -/
theorem iterator_next_contract_witness :
    ∃ n, n ≤ sampleCursor.item_bytes.length ∧
      (dropEngine sampleCursor.item_bytes 2 ()).1 = sampleCursor.item_bytes.drop n ∧
      Composite.next dropEngine sampleCursor =
        (some (Except.ok
          { name := some "x", bytes := sampleCursor.item_bytes.take n,
            field := ⟨some "x", 2⟩, types := () }),
         { sampleCursor with
           item_bytes := sampleCursor.item_bytes.drop n,
           fields := [⟨none, 1⟩] }) :=
  (iterator_next_contract dropEngine sampleCursor
      (fun b t r => List.drop_suffix t b)).2.2 ⟨some "x", 2⟩ [⟨none, 1⟩] rfl rfl

/-- A successful `skip_decoding` run leaves no fields, lands the undecoded
view on the engine-fold of the previously remaining fields, and keeps the
from-start bytes. -/
theorem skip_props {E : Engine R Unit Err} :
    ∀ (n : Nat) (c c2 : Composite R), c.remaining = n →
      Composite.skip_decoding E c = (Except.ok (), c2) →
      c2.remaining = 0 ∧ c2.item_bytes = engineFold E c.types c.fields c.item_bytes ∧
      c2.bytes = c.bytes := by
  intro n
  induction n with
  | zero =>
    intro c c2 hc h
    have hf : c.fields = [] := List.length_eq_zero.mp hc
    rw [skip_decoding_nil hf] at h
    obtain rfl : c2 = c := (congrArg Prod.snd h).symm
    simp [Composite.remaining, hf, engineFold]
  | succ n ih =>
    intro c c2 hc h
    rcases hF : c.fields with _ | ⟨f, rest⟩
    · rw [Composite.remaining, hF] at hc
      simp at hc
    · rcases he : (E c.item_bytes f.ty c.types).2 with e | u
      · rw [skip_decoding_cons_err hF he] at h
        simp at h
      · cases u
        rw [skip_decoding_cons_ok hF he] at h
        have hstep : (stepCursor E c f rest).remaining = n := by
          rw [Composite.remaining, hF] at hc
          simp only [List.length_cons] at hc
          simp only [stepCursor, Composite.remaining]
          omega
        obtain ⟨h1, h2, h3⟩ := ih (stepCursor E c f rest) c2 hstep h
        refine ⟨h1, ?_, h3⟩
        rw [h2]
        simp [stepCursor, engineFold, hF]

/-- Claim C6: a successful `skip_decoding` call leaves `remaining()` equal to
zero, having applied the ignoring-visitor engine once per previously
remaining field in order, so that `bytes_from_undecoded()` afterwards is
the byte cursor lying immediately after this composite's encoding (the
engine-fold over the remaining fields), with the from-start bytes
unchanged. -/
theorem skip_decoding_contract (E : Engine R Unit Err) (c c2 : Composite R)
    (h : Composite.skip_decoding E c = (Except.ok (), c2)) :
    c2.remaining = 0 ∧
    c2.bytes_from_undecoded = engineFold E c.types c.fields c.bytes_from_undecoded ∧
    c2.bytes_from_start = c.bytes_from_start := by
  obtain ⟨h1, h2, h3⟩ := skip_props c.remaining c c2 rfl h
  exact ⟨h1, h2, h3⟩

/-- Witness for C6: skipping the sample cursor consumes 2 then 1 bytes. -/
theorem skip_decoding_contract_witness :
    sampleCursor2.remaining = 0 ∧
    sampleCursor2.bytes_from_undecoded =
      engineFold dropEngine () sampleCursor.fields sampleCursor.bytes_from_undecoded ∧
    sampleCursor2.bytes_from_start = sampleCursor.bytes_from_start := by
  have e1 : Composite.skip_decoding dropEngine sampleCursor =
      Composite.skip_decoding dropEngine sampleCursor1 :=
    skip_decoding_cons_ok
      (show sampleCursor.fields = ⟨some "x", 2⟩ :: [⟨none, 1⟩] from rfl) rfl
  have e2 : Composite.skip_decoding dropEngine sampleCursor1 =
      Composite.skip_decoding dropEngine sampleCursor2 :=
    skip_decoding_cons_ok (show sampleCursor1.fields = ⟨none, 1⟩ :: [] from rfl) rfl
  have e3 : Composite.skip_decoding dropEngine sampleCursor2 =
      (Except.ok (), sampleCursor2) :=
    skip_decoding_nil rfl
  exact skip_decoding_contract dropEngine sampleCursor sampleCursor2
    (e1.trans (e2.trans e3))

/-- When the concrete visitor's engine succeeds on every remaining item and
the ignoring visitor's engine consumes the same bytes and succeeds wherever
the concrete one does, skipping lands on exactly the final cursor of the
decoding run. -/
theorem skip_vs_run {Ev : Engine R V Err} {Eig : Engine R Unit Err}
    (hagree : ∀ b t r, (Eig b t r).1 = (Ev b t r).1)
    (hig : ∀ b t r, (Ev b t r).2.isOk = true → (Eig b t r).2 = Except.ok ()) :
    ∀ (n : Nat) (c : Composite R), c.remaining = n →
      (∀ res ∈ (Composite.runAll Ev c).2.1, res.isOk = true) →
      Composite.skip_decoding Eig c = (Except.ok (), (Composite.runAll Ev c).2.2) := by
  intro n
  induction n with
  | zero =>
    intro c hc hok
    have hf : c.fields = [] := List.length_eq_zero.mp hc
    rw [skip_decoding_nil hf, runAll_none hf]
  | succ n ih =>
    intro c hc hok
    rcases hF : c.fields with _ | ⟨f, rest⟩
    · rw [Composite.remaining, hF] at hc
      simp at hc
    · have hmem : (Ev c.item_bytes f.ty c.types).2.isOk = true := by
        apply hok
        rw [runAll_cons hF]
        exact List.mem_cons_self _ _
      have hEig := hig c.item_bytes f.ty c.types hmem
      have hstepeq : stepCursor Eig c f rest = stepCursor Ev c f rest := by
        simp [stepCursor, hagree c.item_bytes f.ty c.types]
      have hstep : (stepCursor Ev c f rest).remaining = n := by
        rw [Composite.remaining, hF] at hc
        simp only [List.length_cons] at hc
        simp only [stepCursor, Composite.remaining]
        omega
      have hokstep : ∀ res ∈ (Composite.runAll Ev (stepCursor Ev c f rest)).2.1,
          res.isOk = true := by
        intro res hres
        apply hok
        rw [runAll_cons hF]
        exact List.mem_cons_of_mem _ hres
      rw [skip_decoding_cons_ok hF hEig, hstepeq,
        ih (stepCursor Ev c f rest) hstep hokstep, runAll_cons hF]

/-- Claim C3: over the same cursor, registry and fields, `skip_decoding`
followed by `bytes_from_undecoded` yields exactly the byte slice obtained by
successfully decoding every item via `decode_item` with a concrete visitor
and then reading `bytes_from_undecoded` — given the decode engine's
byte consumption does not depend on the visitor and the ignoring visitor
succeeds wherever the concrete one does. -/
theorem skip_agrees_with_decode (Ev : Engine R V Err) (Eig : Engine R Unit Err)
    (c : Composite R)
    (hagree : ∀ b t r, (Eig b t r).1 = (Ev b t r).1)
    (hig : ∀ b t r, (Ev b t r).2.isOk = true → (Eig b t r).2 = Except.ok ())
    (hok : ∀ res ∈ (Composite.runAll Ev c).2.1, res.isOk = true) :
    (Composite.skip_decoding Eig c).1 = Except.ok () ∧
    (Composite.skip_decoding Eig c).2.bytes_from_undecoded =
      (Composite.runAll Ev c).2.2.bytes_from_undecoded := by
  rw [skip_vs_run hagree hig c.remaining c rfl hok]
  exact ⟨rfl, rfl⟩

/-- Witness for C3 with the drop-engine playing both visitors. -/
theorem skip_agrees_with_decode_witness :
    (Composite.skip_decoding dropEngine sampleCursor).1 = Except.ok () ∧
    (Composite.skip_decoding dropEngine sampleCursor).2.bytes_from_undecoded =
      (Composite.runAll dropEngine sampleCursor).2.2.bytes_from_undecoded := by
  have r1 : Composite.runAll dropEngine sampleCursor =
      (2 :: (Composite.runAll dropEngine sampleCursor1).1,
       Except.ok () :: (Composite.runAll dropEngine sampleCursor1).2.1,
       (Composite.runAll dropEngine sampleCursor1).2.2) :=
    runAll_cons (show sampleCursor.fields = ⟨some "x", 2⟩ :: [⟨none, 1⟩] from rfl)
  have r2 : Composite.runAll dropEngine sampleCursor1 =
      (1 :: (Composite.runAll dropEngine sampleCursor2).1,
       Except.ok () :: (Composite.runAll dropEngine sampleCursor2).2.1,
       (Composite.runAll dropEngine sampleCursor2).2.2) :=
    runAll_cons (show sampleCursor1.fields = ⟨none, 1⟩ :: [] from rfl)
  have r3 : Composite.runAll dropEngine sampleCursor2 = ([], [], sampleCursor2) :=
    runAll_none rfl
  apply skip_agrees_with_decode dropEngine dropEngine sampleCursor
    (fun b t r => rfl) (fun b t r h => rfl)
  intro res hres
  rw [r1, r2, r3] at hres
  simp at hres
  subst hres
  rfl

/-- An error returned by `skip_decoding` is an error some engine call
produced, unchanged, on a still-remaining field. -/
theorem skip_error_source {E : Engine R Unit Err} :
    ∀ (n : Nat) (c c2 : Composite R) (e : Err), c.remaining = n →
      Composite.skip_decoding E c = (Except.error e, c2) →
      ∃ b f, f ∈ c.fields ∧ (E b f.ty c.types).2 = Except.error e := by
  intro n
  induction n with
  | zero =>
    intro c c2 e hc h
    have hf : c.fields = [] := List.length_eq_zero.mp hc
    rw [skip_decoding_nil hf] at h
    simp at h
  | succ n ih =>
    intro c c2 e hc h
    rcases hF : c.fields with _ | ⟨f, rest⟩
    · rw [Composite.remaining, hF] at hc
      simp at hc
    · rcases he : (E c.item_bytes f.ty c.types).2 with e2 | u
      · rw [skip_decoding_cons_err hF he] at h
        have he2 : e2 = e := by
          have := congrArg Prod.fst h
          simpa using this
        exact ⟨c.item_bytes, f, by simp [hF], by rw [he, he2]⟩
      · cases u
        rw [skip_decoding_cons_ok hF he] at h
        have hstep : (stepCursor E c f rest).remaining = n := by
          rw [Composite.remaining, hF] at hc
          simp only [List.length_cons] at hc
          simp only [stepCursor, Composite.remaining]
          omega
        obtain ⟨b, f2, hmem, herr⟩ := ih (stepCursor E c f rest) c2 e hstep h
        exact ⟨b, f2, List.mem_cons_of_mem _ hmem, herr⟩

/-- Claim C7: a nested decode failure during `skip_decoding` or generic
iteration is returned unchanged to the caller — `skip_decoding` returns it
as its error (and every error it returns came unchanged from an engine call
on a remaining field), `next` returns it inside `Some(Err(..))` — and no
per-field result is produced for the failing item. -/
theorem error_propagation_contract (E : Engine R Unit Err) :
    (∀ (c c2 : Composite R) (e : Err),
      Composite.skip_decoding E c = (Except.error e, c2) →
      ∃ b f, f ∈ c.fields ∧ (E b f.ty c.types).2 = Except.error e) ∧
    (∀ (c : Composite R) (f : Field) (rest : List Field) (e : Err),
      c.fields = f :: rest → (E c.item_bytes f.ty c.types).2 = Except.error e →
      Composite.skip_decoding E c = (Except.error e, stepCursor E c f rest) ∧
      Composite.next E c = (some (Except.error e), stepCursor E c f rest)) := by
  constructor
  · intro c c2 e h
    exact skip_error_source c.remaining c c2 e rfl h
  · intro c f rest e hf he
    refine ⟨skip_decoding_cons_err hf he, ?_⟩
    simp [Composite.next, hf, decode_item_cons hf, he]

/-- Witness for C7 at the concrete failing engine and one-field cursor. -/
theorem error_propagation_contract_witness :
    Composite.skip_decoding failEngine oneFieldCursor =
      (Except.error (), stepCursor failEngine oneFieldCursor ⟨none, 7⟩ []) ∧
    Composite.next failEngine oneFieldCursor =
      (some (Except.error ()), stepCursor failEngine oneFieldCursor ⟨none, 7⟩ []) :=
  (error_propagation_contract failEngine).2 oneFieldCursor ⟨none, 7⟩ [] () rfl rfl

/-- One `decode_item` step keeps the undecoded view a suffix of the
from-start view, for a narrowing engine. -/
theorem decode_item_preserves_suffix {E : Engine R V Err} (hN : EngineNarrows E)
    {c : Composite R} (h : SuffixInv c) : SuffixInv (Composite.decode_item E c).2 := by
  rcases hf : c.fields with _ | ⟨f, rest⟩
  · rw [decode_item_nil hf]
    exact h
  · rw [decode_item_cons hf]
    exact (hN c.item_bytes f.ty c.types).trans h

/-- `skip_decoding` keeps the undecoded view a suffix of the from-start
view, for a narrowing engine. -/
theorem skip_preserves_suffix {E : Engine R Unit Err} (hN : EngineNarrows E) :
    ∀ (n : Nat) (c : Composite R), c.remaining = n → SuffixInv c →
      SuffixInv (Composite.skip_decoding E c).2 := by
  intro n
  induction n with
  | zero =>
    intro c hc h
    rw [skip_decoding_nil (List.length_eq_zero.mp hc)]
    exact h
  | succ n ih =>
    intro c hc h
    rcases hF : c.fields with _ | ⟨f, rest⟩
    · rw [Composite.remaining, hF] at hc
      simp at hc
    · have hsi : SuffixInv (stepCursor E c f rest) :=
        (hN c.item_bytes f.ty c.types).trans h
      have hstep : (stepCursor E c f rest).remaining = n := by
        rw [Composite.remaining, hF] at hc
        simp only [List.length_cons] at hc
        simp only [stepCursor, Composite.remaining]
        omega
      rcases he : (E c.item_bytes f.ty c.types).2 with e | u
      · rw [skip_decoding_cons_err hF he]
        exact hsi
      · cases u
        rw [skip_decoding_cons_ok hF he]
        exact ih (stepCursor E c f rest) hstep hsi

/-- Generic iteration keeps the undecoded view a suffix of the from-start
view, for a narrowing engine. -/
theorem next_preserves_suffix {E : Engine R Unit Err} (hN : EngineNarrows E)
    {c : Composite R} (h : SuffixInv c) : SuffixInv (Composite.next E c).2 := by
  rcases hf : c.fields with _ | ⟨f, rest⟩
  · simp [Composite.next, hf]
    exact h
  · rcases he : (E c.item_bytes f.ty c.types).2 with e | u
    · simp [Composite.next, hf, decode_item_cons hf, he]
      exact (hN c.item_bytes f.ty c.types).trans h
    · cases u
      simp [Composite.next, hf, decode_item_cons hf, he]
      exact (hN c.item_bytes f.ty c.types).trans h

/-- Claim C10: for a cursor built by `Composite::new` the undecoded view
starts out equal to the from-start view, and — provided every nested
decode-engine call narrows its byte cursor to a suffix of the cursor it was
given — each of `decode_item`, `skip_decoding` and generic iteration keeps
the undecoded view a suffix of the from-start view; in particular its
length never exceeds the from-start length. -/
theorem undecoded_suffix_invariant (E : Engine R V Err) (Eig : Engine R Unit Err)
    (c : Composite R) (hN : EngineNarrows E) (hNig : EngineNarrows Eig) :
    (∀ (b : List Nat) (p : List String) (fs : List Field) (r : R),
      (Composite.new b p fs r).item_bytes = (Composite.new b p fs r).bytes) ∧
    (SuffixInv c → SuffixInv (Composite.decode_item E c).2 ∧
      (Composite.decode_item E c).2.bytes_from_undecoded.length ≤
        (Composite.decode_item E c).2.bytes_from_start.length) ∧
    (SuffixInv c → SuffixInv (Composite.skip_decoding Eig c).2) ∧
    (SuffixInv c → SuffixInv (Composite.next Eig c).2) := by
  refine ⟨fun b p fs r => rfl, fun h => ⟨decode_item_preserves_suffix hN h, ?_⟩,
    fun h => skip_preserves_suffix hNig c.remaining c rfl h,
    fun h => next_preserves_suffix hNig h⟩
  exact List.IsSuffix.length_le (decode_item_preserves_suffix hN h)

/-- Witness for C10 at the drop-engine and the sample cursor. -/
theorem undecoded_suffix_invariant_witness :
    SuffixInv (Composite.decode_item dropEngine sampleCursor).2 ∧
    SuffixInv (Composite.skip_decoding dropEngine sampleCursor).2 ∧
    SuffixInv (Composite.next dropEngine sampleCursor).2 := by
  have h := undecoded_suffix_invariant dropEngine dropEngine sampleCursor
      (fun b t r => List.drop_suffix t b) (fun b t r => List.drop_suffix t b)
  have hs : SuffixInv sampleCursor := ⟨[], rfl⟩
  exact ⟨(h.2.1 hs).1, h.2.2.1 hs, h.2.2.2 hs⟩

end ScaleDecode
